import Mathlib

/-!
# TwitterVisualizationScrapper: the aggregation and ordering pipeline of `plotUser`

A shallow embedding of `src/main.go`.

* Go `int` fields and counters are `Int`: the code only compares the calendar fields and
  adds one per record to a counter, and a slice cannot hold `2^63` records, so no operation
  of the pipeline can overflow.
* Go `map[DayDate]int` is an association list with pairwise distinct keys; reading an absent
  key gives the zero value, as in Go.  The order in which `range` visits the keys is not
  fixed by Go, so it is a parameter of the model.
* `float64(n)` for a counter `n` is kept as the integer `n` (the conversion is exact far
  beyond any slice length).
* Library calls (`time.Parse`, `plot.New`, `plotter.NewBarChart`, `os.Mkdir`, `p.Save`) are
  fields of `Libs`; the file effects act on an explicit `World`.
-/

namespace TwitterViz

/-! ## Data model (main.go lines 22-36) -/

/-- The Go struct `TimelineItem`. -/
structure TimelineItem where
  ID : Int
  Text : String
  CreatedAt : String
  deriving DecidableEq, Repr

/-- The Go struct `DayDate`. -/
structure DayDate where
  Day : Int
  Month : Int
  Year : Int
  deriving DecidableEq, Repr

/-- The method `DayDate.String`: `fmt.Sprintf("%d.%d.%d", d.Day, d.Month, d.Year)`. -/
def DayDate.String (d : DayDate) : String :=
  toString d.Day ++ "." ++ toString d.Month ++ "." ++ toString d.Year

/-- The calendar fields of a `time.Time` in its own location, as read by `t.Year()`,
`t.Month()`, `t.Day()` (and the clock fields, which `plotUser` never reads). -/
structure Time where
  Year : Int
  Month : Int
  Day : Int
  Hour : Int
  Minute : Int
  Second : Int
  ZoneOffset : Int
  deriving DecidableEq, Repr

/-- Line 112: `DayDate{Day: t.Day(), Month: int(t.Month()), Year: t.Year()}`. -/
def dateOf (t : Time) : DayDate :=
  { Day := t.Day, Month := t.Month, Year := t.Year }

/-! ## The map `tweetsPerDay` -/

/-- A Go `map[DayDate]int`. -/
abbrev Histogram := List (DayDate × Int)

/-- The map read `m[d]`: the stored count, or the zero value when `d` is not a key. -/
def Histogram.get : Histogram → DayDate → Int
  | [], _ => 0
  | (k, v) :: rest, d => if k = d then v else Histogram.get rest d

/-- The map write `m[d] = v`: overwrite the entry of `d`, or add one. -/
def Histogram.set : Histogram → DayDate → Int → Histogram
  | [], d, v => [(d, v)]
  | (k, c) :: rest, d, v => if k = d then (k, v) :: rest else (k, c) :: Histogram.set rest d v

/-- The key set of the map, in storage order. -/
def Histogram.keys (h : Histogram) : List DayDate := h.map Prod.fst

/-! ## Aggregation loop (main.go lines 106-115) -/

/-- The loop `for _, item := range data`, started from the map `h`: the first record whose
`created_at` does not parse ends the loop with that parse error; otherwise the record's day
gets `tweetsPerDay[date] = tweetsPerDay[date] + 1`. -/
def aggregateFrom {ε : Type} (parse : String → Except ε Time) :
    List TimelineItem → Histogram → Except ε Histogram
  | [], h => .ok h
  | item :: rest, h =>
    match parse item.CreatedAt with
    | .error e => .error e
    | .ok t => aggregateFrom parse rest (h.set (dateOf t) (h.get (dateOf t) + 1))

/-- Lines 106-115: the loop started from `make(map[DayDate]int)`. -/
def aggregate {ε : Type} (parse : String → Except ε Time) (data : List TimelineItem) :
    Except ε Histogram :=
  aggregateFrom parse data []

/-- The calendar day a record falls on, when its `created_at` parses. -/
def dayOfItem {ε : Type} (parse : String → Except ε Time) (item : TimelineItem) :
    Option DayDate :=
  match parse item.CreatedAt with
  | .error _ => none
  | .ok t => some (dateOf t)

/-! ## Ordering (main.go lines 117-132) -/

/-- The less-function passed to `sort.Slice` (lines 121-132), on the two keys it reads. -/
def less (a b : DayDate) : Bool :=
  if a.Year < b.Year then true
  else if a.Month < b.Month ∧ a.Year ≤ b.Year then true
  else if a.Day < b.Day ∧ a.Month ≤ b.Month ∧ a.Year ≤ b.Year then true
  else false

/-- The three-key lexicographic order on calendar days, as the specification words it:
year, then month, then day. -/
def lexLt (a b : DayDate) : Prop :=
  a.Year < b.Year ∨ (a.Year = b.Year ∧ a.Month < b.Month) ∨
    (a.Year = b.Year ∧ a.Month = b.Month ∧ a.Day < b.Day)

instance lexLt.decidable (a b : DayDate) : Decidable (lexLt a b) := by
  unfold lexLt; infer_instance

/-- One pass of the inner loop of Go's insertion sort
(`for j := i; j > a && less(j, j-1); j-- { swap(j, j-1) }`): the new element `x` moves left
past every element it is less than.  The sorted prefix is held back to front, so its last
element is the head of the list. -/
def insertLess {α : Type} (lt : α → α → Bool) (x : α) : List α → List α
  | [] => [x]
  | e :: rest => if lt x e then e :: insertLess lt x rest else x :: e :: rest

/-- `sort.Slice(keys, less)`, modelled by the insertion sort that the Go library runs on
short slices.  `sortSlice_unique` below shows that on duplicate-free keys every sorting
procedure returns this same list, so the choice of algorithm is not observable. -/
def sortSlice {α : Type} (lt : α → α → Bool) (keys : List α) : List α :=
  (keys.foldl (fun acc x => insertLess lt x acc) []).reverse

/-! ## The ordered series (main.go lines 134-151) -/

/-- Lines 134-139: the loop appending `float64(tweetsPerDay[k])` to `values` and
`k.String()` to `verticalLabels`. -/
def seriesOf (h : Histogram) (keys : List DayDate) : List Int × List String :=
  keys.foldl (fun acc k => (acc.1 ++ [h.get k], acc.2 ++ [k.String])) ([], [])

/-- A `plot.Tick`: position and label. -/
structure Tick where
  Value : Int
  Label : String
  deriving DecidableEq, Repr

/-- Lines 148-151: `ticks[i] = plot.Tick{Value: float64(i), Label: name}`. -/
def ticksOf (verticalLabels : List String) : List Tick :=
  verticalLabels.enum.map (fun p => { Value := (p.1 : Int), Label := p.2 })

/-! ## `time.Parse(time.RubyDate, value)`

The Go standard library is not part of the repository.  The general theorems below hold for
every parser (`Libs.timeParse`); the model here is used to run the concrete scenarios.  It
follows `time.Parse` of the current Go releases for the layout
`"Mon Jan 02 15:04:05 -0700 2006"`, reading the value character by character (every
character the parser accepts is ASCII, so characters and bytes coincide on accepted input).
-/

/-- The kinds of `*time.ParseError` that `time.Parse` reports. -/
inductive ParseError where
  | cannotParse
  | outOfRange
  | extraText
  | dayOutOfRange
  deriving DecidableEq, Repr

/-- Go `match`: equality of two characters ignoring ASCII letter case. -/
def matchFold : List Char → List Char → Bool
  | c1 :: r1, c2 :: r2 =>
    (c1 = c2 || ((c1.toNat ||| 32) = (c2.toNat ||| 32) && 97 ≤ (c1.toNat ||| 32)
      && (c1.toNat ||| 32) ≤ 122)) && matchFold r1 r2
  | [], [] => true
  | _, _ => false

/-- The loop of Go `lookup`, from table index `i` on. -/
def lookupFrom (val : List Char) : List String → Nat → Option (Nat × List Char)
  | [], _ => none
  | v :: vs, i =>
    if v.length ≤ val.length ∧ matchFold (val.take v.length) v.toList then
      some (i, val.drop v.length)
    else lookupFrom val vs (i + 1)

/-- Go `lookup`: the index of the first table entry that is a prefix of the value
(ignoring case), and the rest of the value. -/
def lookup (tab : List String) (val : List Char) : Option (Nat × List Char) :=
  lookupFrom val tab 0

/-- The table `shortDayNames`. -/
def shortDayNames : List String := ["Sun", "Mon", "Tue", "Wed", "Thu", "Fri", "Sat"]

/-- The table `shortMonthNames`. -/
def shortMonthNames : List String :=
  ["Jan", "Feb", "Mar", "Apr", "May", "Jun", "Jul", "Aug", "Sep", "Oct", "Nov", "Dec"]

/-- The value of a decimal digit character. -/
def digitVal (c : Char) : Nat := c.toNat - 48

/-- Go `getnum`: one or two decimal digits (`fixed` demands two). -/
def getnum (s : List Char) (fixed : Bool) : Option (Nat × List Char) :=
  match s with
  | [] => none
  | [c0] => if c0.isDigit ∧ ¬ fixed then some (digitVal c0, []) else none
  | c0 :: c1 :: rest =>
    if ¬ c0.isDigit then none
    else if ¬ c1.isDigit then (if fixed then none else some (digitVal c0, c1 :: rest))
    else some (digitVal c0 * 10 + digitVal c1, rest)

/-- Go `cutspace`: drop the leading spaces. -/
def cutspace : List Char → List Char
  | ' ' :: rest => cutspace rest
  | s => s

/-- Go `skip` for the layout prefix `" "`: a run of spaces (or the end of the value). -/
def skipSpace (value : List Char) : Option (List Char) :=
  match value with
  | [] => some []
  | c :: rest => if c = ' ' then some (cutspace rest) else none

/-- Go `skip` for the layout prefix `":"`. -/
def skipColon (value : List Char) : Option (List Char) :=
  match value with
  | ':' :: rest => some rest
  | _ => none

/-- The fractional second that `time.Parse` accepts after the seconds even though the
layout has none: a period or comma followed by at least one digit; all its digits are
consumed. -/
def skipFraction (value : List Char) : List Char :=
  match value with
  | c0 :: c1 :: rest =>
    if (c0 = '.' ∨ c0 = ',') ∧ c1.isDigit then rest.dropWhile Char.isDigit else value
  | _ => value

/-- Go `isLeap`. -/
def isLeap (year : Nat) : Bool := year % 4 = 0 ∧ (year % 100 ≠ 0 ∨ year % 400 = 0)

/-- Go `daysIn`. -/
def daysIn (month year : Nat) : Nat :=
  if month = 2 then (if isLeap year then 29 else 28)
  else if month = 4 ∨ month = 6 ∨ month = 9 ∨ month = 11 then 30 else 31

/-- Lift a failed step to the parse error `cannotParse`. -/
def orBad {α : Type} : Option α → Except ParseError α
  | some a => .ok a
  | none => .error .cannotParse

/-- The chunk `-0700`: sign, two digits of hours, two digits of minutes.  As in Go, the
minutes are read only when the hours were, a range error (hours above 24, minutes above 60)
is reported before any other, and the sign is looked at last. -/
def parseNumTZ (value : List Char) : Except ParseError (Int × List Char) :=
  match value with
  | sign :: h1 :: h2 :: m1 :: m2 :: rest =>
    let hr := getnum [h1, h2] true
    let mm := if hr.isSome then getnum [m1, m2] true else none
    let hrv := (hr.map Prod.fst).getD 0
    let mmv := (mm.map Prod.fst).getD 0
    if 24 < hrv ∨ 60 < mmv then .error .outOfRange
    else if mm.isNone then .error .cannotParse
    else if sign = '+' then .ok ((((hrv * 60 + mmv) * 60 : Nat) : Int), rest)
    else if sign = '-' then .ok (-(((hrv * 60 + mmv) * 60 : Nat) : Int), rest)
    else .error .cannotParse
  | _ => .error .cannotParse

/-- The chunk `2006`: exactly four decimal digits. -/
def parseLongYear (value : List Char) : Except ParseError (Nat × List Char) :=
  match value with
  | c0 :: c1 :: c2 :: c3 :: rest =>
    if c0.isDigit ∧ c1.isDigit ∧ c2.isDigit ∧ c3.isDigit then
      .ok (((digitVal c0 * 10 + digitVal c1) * 10 + digitVal c2) * 10 + digitVal c3, rest)
    else .error .cannotParse
  | _ => .error .cannotParse

/-- `time.Parse(time.RubyDate, value)`: weekday name (not checked against the date), month
name, two-digit day, hour, minute, second, numeric zone, four-digit year, nothing after
it; then the day is checked against the month.  The returned time is in the zone written in
the value, so its calendar fields are the written ones. -/
def parseRubyDate (value : String) : Except ParseError Time := do
  let v := value.toList
  let (_, v) ← orBad (lookup shortDayNames v)
  let v ← orBad (skipSpace v)
  let (month0, v) ← orBad (lookup shortMonthNames v)
  let v ← orBad (skipSpace v)
  let (day, v) ← orBad (getnum v true)
  let v ← orBad (skipSpace v)
  let (hour, v) ← orBad (getnum v false)
  if 24 ≤ hour then .error .outOfRange
  let v ← orBad (skipColon v)
  let (min, v) ← orBad (getnum v true)
  if 60 ≤ min then .error .outOfRange
  let v ← orBad (skipColon v)
  let (sec, v) ← orBad (getnum v true)
  if 60 ≤ sec then .error .outOfRange
  let v := skipFraction v
  let v ← orBad (skipSpace v)
  let (zoneOffset, v) ← parseNumTZ v
  let v ← orBad (skipSpace v)
  let (year, v) ← parseLongYear v
  if v ≠ [] then .error .extraText
  if day < 1 ∨ daysIn (month0 + 1) year < day then .error .dayOutOfRange
  return { Year := year, Month := month0 + 1, Day := day, Hour := hour, Minute := min,
           Second := sec, ZoneOffset := zoneOffset }

/-! ## Charts, files and the library calls of `plotUser` -/

/-- A `plotter.BarChart`: the copied values and the bar width (in points). -/
structure BarChart where
  Values : List Int
  Width : ℚ
  deriving DecidableEq, Repr

/-- A `plot.Plot`, as far as `plotUser` fills it: the plotters added with `p.Add` and the
constant tick marks of the X axis.  The label rotation, alignment and padding constants
(lines 153-155) are floating-point styling and are left out. -/
structure Plot where
  Bars : List BarChart
  Ticks : List Tick
  deriving DecidableEq, Repr

/-- What `plotUser` can see and change on disk: whether `output` exists, and the image
files written so far (path and plot). -/
structure World where
  OutputExists : Bool
  Files : List (String × Plot)
  deriving DecidableEq, Repr

/-- The library and runtime behaviour `plotUser` depends on.  An `os` or `plot` call that
can touch the disk returns its error (if any) together with the world it leaves. -/
structure Libs where
  /-- The call `time.Parse(time.RubyDate, s)`. -/
  timeParse : String → Except ParseError Time
  /-- The order in which `for k := range tweetsPerDay` visits the keys. -/
  mapRange : Histogram → List DayDate
  /-- The call `plot.New()`. -/
  plotNew : Except String Plot
  /-- The call `plotter.NewBarChart(values, width)`. -/
  newBarChart : List Int → ℚ → Except String BarChart
  /-- The call `os.Mkdir("output", 0744)`. -/
  mkdir : World → Option String × World
  /-- The call `filepath.Join(dir, file)`. -/
  filepathJoin : String → String → String
  /-- The call `p.Save(1024, 512, path)`. -/
  save : Plot → String → World → Option String × World

/-- The error values `plotUser` returns, one per `fmt.Errorf` of the function. -/
inductive PlotError where
  | failedToPlotUser (e : String)
  | invalidDate (e : ParseError)
  | failedToCreateBarchart (e : String)
  | failedToCreateOutputDirectory (e : String)
  | failedToSavePlot (e : String)
  deriving DecidableEq, Repr

/-- The bar width `0.1*vg.Centimeter` in points (`vg.Centimeter = vg.Inch / 2.54`,
`vg.Inch = 72`), as an exact rational. -/
def barWidth : ℚ := (1 / 10) * (72 / (254 / 100))

/-- The function `plotUser` (main.go lines 100-169), returning its error (`none` for `nil`)
and the world it leaves. -/
def plotUser (L : Libs) (username : String) (data : List TimelineItem) (w : World) :
    Option PlotError × World :=
  match L.plotNew with
  | .error e => (some (.failedToPlotUser e), w)
  | .ok p =>
    match aggregate L.timeParse data with
    | .error e => (some (.invalidDate e), w)
    | .ok tweetsPerDay =>
      let keys := sortSlice less (L.mapRange tweetsPerDay)
      let series := seriesOf tweetsPerDay keys
      match L.newBarChart series.1 barWidth with
      | .error e => (some (.failedToCreateBarchart e), w)
      | .ok barChart =>
        let p1 : Plot := { Bars := p.Bars ++ [barChart], Ticks := ticksOf series.2 }
        let made := if w.OutputExists then (none, w) else L.mkdir w
        match made.1 with
        | some e => (some (.failedToCreateOutputDirectory e), made.2)
        | none =>
          let saved := L.save p1 (L.filepathJoin "output" (username ++ ".png")) made.2
          match saved.1 with
          | some e => (some (.failedToSavePlot e), saved.2)
          | none => (none, saved.2)

/-- The Go runtime guarantee on `range` over a map: every key is visited exactly once. -/
def Libs.RangeOk (L : Libs) : Prop := ∀ h : Histogram, (L.mapRange h).Perm h.keys

/-- `plotter.NewBarChart` of gonum: a non-positive width is rejected, and `CopyValues`
rejects an empty value list with `ErrNoData`. -/
def gonumNewBarChart (values : List Int) (width : ℚ) : Except String BarChart :=
  if width ≤ 0 then .error "plotter: width parameter was not positive"
  else if values.length = 0 then .error "plotter: no data points"
  else .ok { Values := values, Width := width }

/-- The libraries as they behave on a writable disk: the Go `time` parser, gonum's bar
chart constructor, a `range` that visits the keys in storage order, and file operations
that succeed. -/
def stdLibs : Libs where
  timeParse := parseRubyDate
  mapRange := Histogram.keys
  plotNew := .ok { Bars := [], Ticks := [] }
  newBarChart := gonumNewBarChart
  mkdir := fun w => (none, { w with OutputExists := true })
  filepathJoin := fun dir file => dir ++ "/" ++ file
  save := fun p path w => (none, { w with Files := w.Files ++ [(path, p)] })

/-- A fresh working directory: no `output`, no files. -/
def emptyWorld : World := { OutputExists := false, Files := [] }

/-! ## Predicates and sample inputs used by the theorems -/

/-- The invariant of the map during the aggregation loop: distinct keys, positive counts. -/
def Histogram.Wf (h : Histogram) : Prop :=
  h.keys.Nodup ∧ ∀ p ∈ h, 0 < p.2

/-- The number of records of `data` that fall on day `d`. -/
def recordsOn {ε : Type} (parse : String → Except ε Time) (d : DayDate)
    (data : List TimelineItem) : Nat :=
  data.countP (fun item => decide (dayOfItem parse item = some d))

/-- Every `created_at` of `data` parses. -/
def AllParse {ε : Type} (parse : String → Except ε Time) (data : List TimelineItem) : Prop :=
  ∀ item ∈ data, ∃ t, parse item.CreatedAt = .ok t

/-- Some `created_at` of `data` does not parse. -/
def SomeMalformed {ε : Type} (parse : String → Except ε Time) (data : List TimelineItem) :
    Prop :=
  ∃ item ∈ data, ∃ e, parse item.CreatedAt = .error e

/-- Three records of the end-to-end scenario: two on 5 January 2024 and one on 1 February
2024.  The first two carry the same ID. -/
def scenarioRecords : List TimelineItem :=
  [ { ID := 7, Text := "a", CreatedAt := "Fri Jan 05 10:00:00 +0000 2024" },
    { ID := 7, Text := "b", CreatedAt := "Fri Jan 05 18:30:00 +0000 2024" },
    { ID := 9, Text := "c", CreatedAt := "Thu Feb 01 09:00:00 +0000 2024" } ]

/-- Records on both sides of a year boundary and of a month boundary, newest first. -/
def boundaryRecords : List TimelineItem :=
  [ { ID := 4, Text := "", CreatedAt := "Thu Feb 01 09:00:00 +0000 2024" },
    { ID := 3, Text := "", CreatedAt := "Wed Jan 31 23:59:59 +0100 2024" },
    { ID := 2, Text := "", CreatedAt := "Mon Jan 01 00:00:00 +0000 2024" },
    { ID := 1, Text := "", CreatedAt := "Sun Dec 31 23:59:59 -0500 2023" } ]

/-- The map the aggregation loop builds from `boundaryRecords`. -/
def boundaryHistogram : Histogram :=
  [(⟨1, 2, 2024⟩, 1), (⟨31, 1, 2024⟩, 1), (⟨1, 1, 2024⟩, 1), (⟨31, 12, 2023⟩, 1)]

/-! ## The less-function is the lexicographic order -/

theorem less_iff_lexLt (a b : DayDate) : less a b = true ↔ lexLt a b := by
  unfold less lexLt
  split_ifs <;> simp only [Bool.false_eq_true, true_iff, false_iff, eq_self_iff_true] <;> omega

theorem less_irrefl (a : DayDate) : less a a = false := by
  unfold less
  split_ifs <;> first | rfl | omega

theorem less_trans {a b c : DayDate} (hab : less a b = true) (hbc : less b c = true) :
    less a c = true := by
  rw [less_iff_lexLt] at *
  unfold lexLt at *
  omega

theorem less_asymm {a b : DayDate} (hab : less a b = true) : less b a = false := by
  cases hba : less b a with
  | false => rfl
  | true => exact absurd (less_trans hab hba) (by simp [less_irrefl])

theorem less_total {a b : DayDate} (hne : a ≠ b) : less a b = true ∨ less b a = true := by
  rw [less_iff_lexLt, less_iff_lexLt]
  unfold lexLt
  have : a.Year ≠ b.Year ∨ a.Month ≠ b.Month ∨ a.Day ≠ b.Day := by
    by_contra hcon
    push_neg at hcon
    apply hne
    cases a; cases b
    simp_all
  omega

/-! ## Insertion sort: permutation, order, uniqueness -/

theorem insertLess_perm {α : Type} (lt : α → α → Bool) (x : α) (l : List α) :
    (insertLess lt x l).Perm (x :: l) := by
  induction l with
  | nil => exact List.Perm.refl _
  | cons e rest ih =>
    unfold insertLess
    split_ifs
    · exact (List.Perm.cons e ih).trans (List.Perm.swap x e rest)
    · exact List.Perm.refl _

theorem foldl_insertLess_perm {α : Type} (lt : α → α → Bool) (keys acc : List α) :
    (keys.foldl (fun acc x => insertLess lt x acc) acc).Perm (keys ++ acc) := by
  induction keys generalizing acc with
  | nil => exact List.Perm.refl _
  | cons k ks ih =>
    simp only [List.foldl_cons, List.cons_append]
    refine (ih _).trans ?_
    refine (List.Perm.append_left ks (insertLess_perm lt k acc)).trans ?_
    exact List.perm_middle

theorem sortSlice_perm {α : Type} (lt : α → α → Bool) (keys : List α) :
    (sortSlice lt keys).Perm keys := by
  unfold sortSlice
  refine (List.reverse_perm _).trans ?_
  simpa using foldl_insertLess_perm lt keys []

/-- A sorted prefix held back to front stays sorted when a new key is inserted. -/
theorem insertLess_desc (x : DayDate) (l : List DayDate) (hx : x ∉ l)
    (hl : l.Pairwise (fun a b => less b a = true)) :
    (insertLess less x l).Pairwise (fun a b => less b a = true) := by
  induction l with
  | nil => simp [insertLess]
  | cons e rest ih =>
    have hne : x ≠ e := fun h => hx (by simp [h])
    have hxr : x ∉ rest := fun h => hx (by simp [h])
    rw [List.pairwise_cons] at hl
    unfold insertLess
    split_ifs with hlt
    · rw [List.pairwise_cons]
      refine ⟨?_, ih hxr hl.2⟩
      intro b hb
      have hb' := (insertLess_perm less x rest).mem_iff.mp hb
      rw [List.mem_cons] at hb'
      rcases hb' with rfl | hb'
      · exact hlt
      · exact hl.1 b hb'
    · have hex : less e x = true := by
        rcases less_total hne with h | h
        · exact absurd h hlt
        · exact h
      rw [List.pairwise_cons]
      refine ⟨?_, List.pairwise_cons.mpr hl⟩
      intro b hb
      rw [List.mem_cons] at hb
      rcases hb with rfl | hb
      · exact hex
      · exact less_trans (hl.1 b hb) hex

theorem foldl_insertLess_desc (keys acc : List DayDate) (hnd : (keys ++ acc).Nodup)
    (hacc : acc.Pairwise (fun a b => less b a = true)) :
    (keys.foldl (fun acc x => insertLess less x acc) acc).Pairwise
      (fun a b => less b a = true) := by
  induction keys generalizing acc with
  | nil => exact hacc
  | cons k ks ih =>
    simp only [List.foldl_cons]
    have hk : k ∉ acc := by
      intro hmem
      have := (List.nodup_cons.mp hnd).1
      exact this (List.mem_append_right ks hmem)
    refine ih _ ?_ (insertLess_desc k acc hk hacc)
    have hperm : (ks ++ insertLess less k acc).Perm (k :: ks ++ acc) :=
      (List.Perm.append_left ks (insertLess_perm less k acc)).trans List.perm_middle
    exact hperm.nodup_iff.mpr hnd

theorem sortSlice_sorted (keys : List DayDate) (hnd : keys.Nodup) :
    (sortSlice less keys).Pairwise (fun a b => less a b = true) := by
  unfold sortSlice
  rw [List.pairwise_reverse]
  exact foldl_insertLess_desc keys [] (by simpa using hnd) List.Pairwise.nil

/-- On duplicate-free keys the result of sorting is determined by the order alone: every
strictly increasing arrangement of the keys is the list `sortSlice` returns. -/
theorem sortSlice_unique (keys sorted : List DayDate) (hnd : keys.Nodup)
    (hperm : sorted.Perm keys) (hs : sorted.Pairwise (fun a b => less a b = true)) :
    sortSlice less keys = sorted := by
  haveI : IsAntisymm DayDate (fun a b => less a b = true) :=
    ⟨fun a b hab hba => absurd hba (by simp [less_asymm hab])⟩
  exact List.eq_of_perm_of_sorted ((sortSlice_perm less keys).trans hperm.symm)
    (sortSlice_sorted keys hnd) hs

/-! ## The map operations -/

theorem Histogram.get_set (h : Histogram) (d d' : DayDate) (v : Int) :
    (h.set d v).get d' = if d = d' then v else h.get d' := by
  induction h with
  | nil => simp [Histogram.set, Histogram.get]
  | cons p rest ih =>
    obtain ⟨k, c⟩ := p
    by_cases hk : k = d
    · subst hk
      by_cases hd : k = d' <;> simp [Histogram.set, Histogram.get, hd]
    · by_cases hd : d = d'
      · subst hd
        simp [Histogram.set, Histogram.get, hk, ih]
      · by_cases hkd : k = d'
        · subst hkd
          simp [Histogram.set, Histogram.get, hk, hd]
        · simp [Histogram.set, Histogram.get, hk, hd, hkd, ih]

theorem Histogram.mem_keys_set (h : Histogram) (d d' : DayDate) (v : Int) :
    d' ∈ (h.set d v).keys ↔ d' = d ∨ d' ∈ h.keys := by
  induction h with
  | nil => simp [Histogram.set, Histogram.keys]
  | cons p rest ih =>
    obtain ⟨k, c⟩ := p
    simp only [Histogram.keys] at ih
    by_cases hk : k = d
    · subst hk
      simp [Histogram.set, Histogram.keys]
    · simp only [Histogram.set, hk, if_false, Histogram.keys, List.map_cons, List.mem_cons, ih]
      tauto

theorem Histogram.nodup_keys_set (h : Histogram) (d : DayDate) (v : Int)
    (hnd : h.keys.Nodup) : (h.set d v).keys.Nodup := by
  induction h with
  | nil => simp [Histogram.set, Histogram.keys]
  | cons p rest ih =>
    obtain ⟨k, c⟩ := p
    have hnd' : k ∉ Histogram.keys rest ∧ (Histogram.keys rest).Nodup := by
      simpa [Histogram.keys] using hnd
    by_cases hk : k = d
    · subst hk
      simpa [Histogram.set, Histogram.keys] using hnd
    · have hmem : k ∉ (Histogram.set rest d v).keys := by
        rw [Histogram.mem_keys_set]
        rintro (h1 | h1)
        · exact hk h1
        · exact hnd'.1 h1
      have := ih hnd'.2
      simp only [Histogram.set, hk, if_false]
      simp only [Histogram.keys, List.map_cons, List.nodup_cons] at *
      exact ⟨hmem, this⟩

theorem Histogram.sum_set (h : Histogram) (d : DayDate) (v : Int) :
    ((h.set d v).map Prod.snd).sum = (h.map Prod.snd).sum - h.get d + v := by
  induction h with
  | nil => simp [Histogram.set, Histogram.get]
  | cons p rest ih =>
    obtain ⟨k, c⟩ := p
    by_cases hk : k = d
    · subst hk
      simp [Histogram.set, Histogram.get]
      omega
    · simp [Histogram.set, Histogram.get, hk, ih]
      omega

theorem Histogram.pos_set (h : Histogram) (d : DayDate) (v : Int) (hv : 0 < v)
    (hpos : ∀ p ∈ h, 0 < p.2) : ∀ p ∈ h.set d v, 0 < p.2 := by
  induction h with
  | nil =>
    intro p hp
    simp only [Histogram.set, List.mem_singleton] at hp
    subst hp
    exact hv
  | cons q rest ih =>
    obtain ⟨k, c⟩ := q
    intro p hp
    by_cases hk : k = d
    · subst hk
      simp only [Histogram.set, if_true, List.mem_cons] at hp
      rcases hp with rfl | hp
      · exact hv
      · exact hpos p (List.mem_cons_of_mem _ hp)
    · simp only [Histogram.set, hk, if_false, List.mem_cons] at hp
      rcases hp with rfl | hp
      · exact hpos _ (List.mem_cons_self _ _)
      · exact ih (fun p hp => hpos p (List.mem_cons_of_mem _ hp)) p hp

theorem Histogram.Wf.nil : Histogram.Wf [] := by
  simp [Histogram.Wf, Histogram.keys]

theorem Histogram.Wf.set {h : Histogram} (hw : h.Wf) (d : DayDate) (v : Int) (hv : 0 < v) :
    (h.set d v).Wf :=
  ⟨Histogram.nodup_keys_set h d v hw.1, Histogram.pos_set h d v hv hw.2⟩

theorem Histogram.get_nonneg {h : Histogram} (hpos : ∀ p ∈ h, 0 < p.2) (d : DayDate) :
    0 ≤ h.get d := by
  induction h with
  | nil => simp [Histogram.get]
  | cons q rest ih =>
    obtain ⟨k, c⟩ := q
    have hc : 0 < c := hpos (k, c) (List.mem_cons_self _ _)
    have ih' := ih (fun p hp => hpos p (List.mem_cons_of_mem _ hp))
    by_cases hk : k = d
    · simp [Histogram.get, hk]; omega
    · simp [Histogram.get, hk, ih']

/-- With positive counts, the keys are exactly the days whose count is not zero. -/
theorem Histogram.mem_keys_iff_pos {h : Histogram} (hpos : ∀ p ∈ h, 0 < p.2) (d : DayDate) :
    d ∈ h.keys ↔ 0 < h.get d := by
  induction h with
  | nil => simp [Histogram.get, Histogram.keys]
  | cons q rest ih =>
    obtain ⟨k, c⟩ := q
    have hc : 0 < c := hpos (k, c) (List.mem_cons_self _ _)
    have ih' := ih (fun p hp => hpos p (List.mem_cons_of_mem _ hp))
    simp only [Histogram.keys] at ih'
    by_cases hk : k = d
    · simp [Histogram.get, Histogram.keys, hk, hc]
    · have hk' : d ≠ k := fun h => hk h.symm
      simp [Histogram.get, Histogram.keys, hk, hk', ih']

/-! ## The aggregation loop -/

theorem aggregateFrom_ok {ε : Type} (parse : String → Except ε Time)
    (data : List TimelineItem) (h : Histogram) (hp : AllParse parse data) :
    ∃ h', aggregateFrom parse data h = .ok h' := by
  induction data generalizing h with
  | nil => exact ⟨h, rfl⟩
  | cons item rest ih =>
    obtain ⟨t, ht⟩ := hp item (List.mem_cons_self _ _)
    have hrest : AllParse parse rest := fun x hx => hp x (List.mem_cons_of_mem _ hx)
    simp only [aggregateFrom, ht]
    exact ih _ hrest

theorem aggregateFrom_error_iff {ε : Type} (parse : String → Except ε Time)
    (data : List TimelineItem) (h : Histogram) :
    (∃ e, aggregateFrom parse data h = .error e) ↔ SomeMalformed parse data := by
  induction data generalizing h with
  | nil => simp [aggregateFrom, SomeMalformed]
  | cons item rest ih =>
    cases hpi : parse item.CreatedAt with
    | error e =>
      simp only [aggregateFrom, hpi]
      exact ⟨fun _ => ⟨item, List.mem_cons_self _ _, e, hpi⟩, fun _ => ⟨e, rfl⟩⟩
    | ok t =>
      simp only [aggregateFrom, hpi]
      rw [ih]
      constructor
      · rintro ⟨x, hx, e, he⟩
        exact ⟨x, List.mem_cons_of_mem _ hx, e, he⟩
      · rintro ⟨x, hx, e, he⟩
        rw [List.mem_cons] at hx
        rcases hx with rfl | hx
        · rw [hpi] at he
          cases he
        · exact ⟨x, hx, e, he⟩

/-- The loop stops at the first malformed record with that record's parse error. -/
theorem aggregateFrom_first_error {ε : Type} (parse : String → Except ε Time)
    (pre post : List TimelineItem) (item : TimelineItem) (e : ε) (h : Histogram)
    (hpre : AllParse parse pre) (hitem : parse item.CreatedAt = .error e) :
    aggregateFrom parse (pre ++ item :: post) h = .error e := by
  induction pre generalizing h with
  | nil => simp [aggregateFrom, hitem]
  | cons x rest ih =>
    obtain ⟨t, ht⟩ := hpre x (List.mem_cons_self _ _)
    simp only [List.cons_append, aggregateFrom, ht]
    exact ih _ (fun y hy => hpre y (List.mem_cons_of_mem _ hy))

/-- What a successful run of the loop from the map `h` leaves: the invariant, one more unit
per record on that record's day, and a total that grew by the number of records. -/
theorem aggregateFrom_spec {ε : Type} (parse : String → Except ε Time)
    (data : List TimelineItem) (h h' : Histogram)
    (hrun : aggregateFrom parse data h = .ok h') (hw : h.Wf) :
    h'.Wf ∧ (∀ d, h'.get d = h.get d + (recordsOn parse d data : Int)) ∧
      (h'.map Prod.snd).sum = (h.map Prod.snd).sum + (data.length : Int) := by
  induction data generalizing h with
  | nil =>
    simp only [aggregateFrom, Except.ok.injEq] at hrun
    subst hrun
    simp [recordsOn, hw]
  | cons item rest ih =>
    cases hpi : parse item.CreatedAt with
    | error e => simp [aggregateFrom, hpi] at hrun
    | ok t =>
      simp only [aggregateFrom, hpi] at hrun
      have hnn := Histogram.get_nonneg hw.2 (dateOf t)
      obtain ⟨hw', hget, hsum⟩ := ih _ hrun (hw.set (dateOf t) _ (by omega))
      refine ⟨hw', ?_, ?_⟩
      · intro d
        rw [hget d, Histogram.get_set]
        have hday : dayOfItem parse item = some (dateOf t) := by simp [dayOfItem, hpi]
        by_cases hd : dateOf t = d
        · subst hd
          simp [recordsOn, List.countP_cons, hday]
          omega
        · simp [recordsOn, List.countP_cons, hday, hd]
      · rw [hsum, Histogram.sum_set]
        simp only [List.length_cons, Nat.cast_add, Nat.cast_one]
        omega

theorem recordsOn_pos_iff {ε : Type} (parse : String → Except ε Time) (d : DayDate)
    (data : List TimelineItem) :
    0 < recordsOn parse d data ↔ ∃ item ∈ data, dayOfItem parse item = some d := by
  simp [recordsOn, List.countP_pos_iff]

theorem recordsOn_perm {ε : Type} (parse : String → Except ε Time) (d : DayDate)
    {data₁ data₂ : List TimelineItem} (hperm : data₁.Perm data₂) :
    recordsOn parse d data₁ = recordsOn parse d data₂ :=
  hperm.countP_eq _

theorem someMalformed_perm {ε : Type} (parse : String → Except ε Time)
    {data₁ data₂ : List TimelineItem} (hperm : data₁.Perm data₂) :
    SomeMalformed parse data₁ ↔ SomeMalformed parse data₂ := by
  unfold SomeMalformed
  constructor
  · rintro ⟨x, hx, he⟩
    exact ⟨x, hperm.mem_iff.mp hx, he⟩
  · rintro ⟨x, hx, he⟩
    exact ⟨x, hperm.mem_iff.mpr hx, he⟩

theorem allParse_or_someMalformed {ε : Type} (parse : String → Except ε Time)
    (data : List TimelineItem) : AllParse parse data ∨ SomeMalformed parse data := by
  by_cases hm : SomeMalformed parse data
  · exact Or.inr hm
  · left
    intro item hitem
    cases hpi : parse item.CreatedAt with
    | ok t => exact ⟨t, rfl⟩
    | error e => exact absurd ⟨item, hitem, e, hpi⟩ hm

/-- A successful aggregation, summarised: distinct keys, the count of every day, which days
are keys, and the total. -/
theorem aggregate_spec {ε : Type} (parse : String → Except ε Time)
    (data : List TimelineItem) (h : Histogram) (hrun : aggregate parse data = .ok h) :
    h.keys.Nodup ∧ (∀ d, h.get d = (recordsOn parse d data : Int)) ∧
      (∀ d, d ∈ h.keys ↔ ∃ item ∈ data, dayOfItem parse item = some d) ∧
      (h.map Prod.snd).sum = (data.length : Int) := by
  obtain ⟨hw, hget, hsum⟩ := aggregateFrom_spec parse data [] h hrun Histogram.Wf.nil
  have hget' : ∀ d, h.get d = (recordsOn parse d data : Int) := by
    intro d
    simpa [Histogram.get] using hget d
  refine ⟨hw.1, hget', ?_, by simpa using hsum⟩
  intro d
  rw [Histogram.mem_keys_iff_pos hw.2, hget', ← recordsOn_pos_iff]
  exact Int.natCast_pos

/-! ## The series loop -/

theorem foldl_series (h : Histogram) (keys : List DayDate) (vs : List Int) (ls : List String) :
    keys.foldl (fun acc k => (acc.1 ++ [h.get k], acc.2 ++ [k.String])) (vs, ls) =
      (vs ++ keys.map h.get, ls ++ keys.map DayDate.String) := by
  induction keys generalizing vs ls with
  | nil => simp
  | cons k ks ih => simp [ih]

theorem seriesOf_eq_map (h : Histogram) (keys : List DayDate) :
    seriesOf h keys = (keys.map h.get, keys.map DayDate.String) := by
  simp [seriesOf, foldl_series]

/-- The sorted keys of a histogram built by the aggregation loop, whatever order `range`
visited them in: a strictly increasing arrangement of the key set. -/
theorem sorted_keys_of_aggregate {ε : Type} (parse : String → Except ε Time)
    (data : List TimelineItem) (h : Histogram) (ks : List DayDate)
    (hrun : aggregate parse data = .ok h) (hks : ks.Perm h.keys) :
    (sortSlice less ks).Perm h.keys ∧ (sortSlice less ks).Nodup ∧
      (sortSlice less ks).Pairwise (fun a b => less a b = true) := by
  have hnd : h.keys.Nodup := (aggregate_spec parse data h hrun).1
  have hksnd : ks.Nodup := hks.nodup_iff.mpr hnd
  exact ⟨(sortSlice_perm less ks).trans hks, (sortSlice_perm less ks).nodup_iff.mpr hksnd,
    sortSlice_sorted ks hksnd⟩

theorem scenarioRecords_parse : AllParse parseRubyDate scenarioRecords := by
  intro item hitem
  simp only [scenarioRecords, List.mem_cons, List.mem_singleton, List.not_mem_nil,
    or_false] at hitem
  rcases hitem with rfl | rfl | rfl
  · exact ⟨⟨2024, 1, 5, 10, 0, 0, 0⟩, by rfl⟩
  · exact ⟨⟨2024, 1, 5, 18, 30, 0, 0⟩, by rfl⟩
  · exact ⟨⟨2024, 2, 1, 9, 0, 0, 0⟩, by rfl⟩

theorem boundaryRecords_aggregate :
    aggregate parseRubyDate boundaryRecords = .ok boundaryHistogram := by rfl

theorem aggregate_error_iff {ε : Type} (parse : String → Except ε Time)
    (data : List TimelineItem) :
    (∃ e, aggregate parse data = .error e) ↔
      ∃ item ∈ data, ∃ e, parse item.CreatedAt = .error e :=
  aggregateFrom_error_iff parse data []

theorem plotUser_of_plotNew_error (L : Libs) (username : String) (data : List TimelineItem)
    (w : World) (e : String) (hp : L.plotNew = .error e) :
    plotUser L username data w = (some (.failedToPlotUser e), w) := by
  unfold plotUser
  simp only [hp]

theorem plotUser_of_aggregate_error (L : Libs) (username : String)
    (data : List TimelineItem) (w : World) (p : Plot) (e : ParseError)
    (hp : L.plotNew = .ok p) (he : aggregate L.timeParse data = .error e) :
    plotUser L username data w = (some (.invalidDate e), w) := by
  unfold plotUser
  simp only [hp, he]

theorem plotUser_invalidDate_only_from_aggregate (L : Libs) (username : String)
    (data : List TimelineItem) (w : World) (e : ParseError)
    (hres : (plotUser L username data w).1 = some (.invalidDate e)) :
    aggregate L.timeParse data = .error e := by
  unfold plotUser at hres
  cases hp : L.plotNew with
  | error e' => simp [hp] at hres
  | ok p =>
    cases hagg : aggregate L.timeParse data with
    | error e' =>
      simp only [hp, hagg, Option.some.injEq, PlotError.invalidDate.injEq] at hres
      rw [hres]
    | ok h =>
      exfalso
      simp only [hp, hagg] at hres
      split at hres
      · simp at hres
      · split at hres
        · simp at hres
        · split at hres <;> simp at hres

theorem barWidth_pos : 0 < barWidth := by
  unfold barWidth
  norm_num

theorem plotUser_of_aggregate_ok (L : Libs) (username : String) (data : List TimelineItem)
    (w : World) (p : Plot) (h : Histogram)
    (hp : L.plotNew = .ok p) (hagg : aggregate L.timeParse data = .ok h) :
    plotUser L username data w =
      match L.newBarChart (seriesOf h (sortSlice less (L.mapRange h))).1 barWidth with
      | .error e => (some (.failedToCreateBarchart e), w)
      | .ok barChart =>
        match (if w.OutputExists then (none, w) else L.mkdir w).1 with
        | some e => (some (.failedToCreateOutputDirectory e),
            (if w.OutputExists then (none, w) else L.mkdir w).2)
        | none =>
          match (L.save { Bars := p.Bars ++ [barChart],
                          Ticks := ticksOf (seriesOf h (sortSlice less (L.mapRange h))).2 }
                  (L.filepathJoin "output" (username ++ ".png"))
                  (if w.OutputExists then (none, w) else L.mkdir w).2).1 with
          | some e => (some (.failedToSavePlot e),
              (L.save { Bars := p.Bars ++ [barChart],
                        Ticks := ticksOf (seriesOf h (sortSlice less (L.mapRange h))).2 }
                (L.filepathJoin "output" (username ++ ".png"))
                (if w.OutputExists then (none, w) else L.mkdir w).2).2)
          | none => (none,
              (L.save { Bars := p.Bars ++ [barChart],
                        Ticks := ticksOf (seriesOf h (sortSlice less (L.mapRange h))).2 }
                (L.filepathJoin "output" (username ++ ".png"))
                (if w.OutputExists then (none, w) else L.mkdir w).2).2) := by
  unfold plotUser
  simp only [hp, hagg]

theorem mapRange_nil (L : Libs) (hR : L.RangeOk) : L.mapRange [] = [] := by
  have := hR []
  simpa [Histogram.keys] using this

theorem stdLibs_rangeOk : stdLibs.RangeOk := fun _ => List.Perm.refl _

theorem plotUser_empty_of_barChart_error (L : Libs) (username : String) (w : World)
    (hR : L.RangeOk) (p : Plot) (e : String) (hp : L.plotNew = .ok p)
    (he : L.newBarChart [] barWidth = .error e) :
    plotUser L username [] w = (some (.failedToCreateBarchart e), w) := by
  have hagg : aggregate L.timeParse [] = .ok [] := rfl
  rw [plotUser_of_aggregate_ok L username [] w p [] hp hagg, mapRange_nil L hR]
  have hs : (seriesOf [] (sortSlice less ([] : List DayDate))).1 = [] := rfl
  simp only [hs, he]

theorem scenarioRecords_aggregate :
    aggregate parseRubyDate scenarioRecords = .ok [(⟨5, 1, 2024⟩, 2), (⟨1, 2, 2024⟩, 1)] := by
  rfl

theorem dayOfItem_some_parses {ε : Type} (parse : String → Except ε Time)
    (item : TimelineItem) (d : DayDate) (hd : dayOfItem parse item = some d) :
    ∃ t, parse item.CreatedAt = .ok t := by
  unfold dayOfItem at hd
  cases hp : parse item.CreatedAt with
  | error e => simp [hp] at hd
  | ok t => exact ⟨t, rfl⟩

/-! ## The claims -/

/-- C1: when every `created_at` of the record sequence parses, the aggregation loop of
`plotUser` returns a histogram with distinct keys that maps every calendar day `d` to the
number of records whose timestamp parses to `d`, and `d` is a key exactly when at least one
record falls on it.  Records are counted one by one, whatever their IDs. -/
theorem aggregate_counts_each_record_once {ε : Type} (parse : String → Except ε Time)
    (data : List TimelineItem)
    (hparse : ∀ item ∈ data, ∃ t, parse item.CreatedAt = .ok t) :
    ∃ h, aggregate parse data = .ok h ∧ h.keys.Nodup ∧
      (∀ d, h.get d = (data.countP (fun item => decide (dayOfItem parse item = some d)) : Int)) ∧
      (∀ d, d ∈ h.keys ↔ 0 < data.countP (fun item => decide (dayOfItem parse item = some d))) := by
  obtain ⟨h, hrun⟩ := aggregateFrom_ok parse data [] hparse
  obtain ⟨hnd, hget, hmem, _⟩ := aggregate_spec parse data h hrun
  refine ⟨h, hrun, hnd, hget, ?_⟩
  intro d
  rw [hmem d]
  exact (recordsOn_pos_iff parse d data).symm

/-- Witness of C1 on the scenario records, two of which share an ID. -/
theorem aggregate_counts_each_record_once_witness :
    (∀ item ∈ scenarioRecords, ∃ t, parseRubyDate item.CreatedAt = .ok t) ∧
    ∃ h, aggregate parseRubyDate scenarioRecords = .ok h ∧ h.keys.Nodup ∧
      (∀ d, h.get d = (scenarioRecords.countP
        (fun item => decide (dayOfItem parseRubyDate item = some d)) : Int)) ∧
      (∀ d, d ∈ h.keys ↔ 0 < scenarioRecords.countP
        (fun item => decide (dayOfItem parseRubyDate item = some d))) :=
  ⟨scenarioRecords_parse,
    aggregate_counts_each_record_once parseRubyDate scenarioRecords scenarioRecords_parse⟩

/-- C2: for every histogram built by the aggregation loop and every order in which `range`
hands out its keys, the key slice after `sort.Slice` is strictly increasing in the
lexicographic order (year, month, day): whenever `i < j`, `keys[i]` precedes `keys[j]`; so
no calendar day occurs twice. -/
theorem sorted_keys_strictly_increasing {ε : Type} (parse : String → Except ε Time)
    (data : List TimelineItem) (h : Histogram) (ks : List DayDate)
    (hrun : aggregate parse data = .ok h) (hks : ks.Perm h.keys) :
    (∀ i j : Fin (sortSlice less ks).length, i < j →
        lexLt ((sortSlice less ks).get i) ((sortSlice less ks).get j)) ∧
      (sortSlice less ks).Nodup := by
  obtain ⟨_, hnd, hsorted⟩ := sorted_keys_of_aggregate parse data h ks hrun hks
  refine ⟨?_, hnd⟩
  intro i j hij
  rw [← less_iff_lexLt]
  exact List.pairwise_iff_get.mp hsorted i j hij

/-- Witness of C2: the keys of the boundary histogram, visited in storage order. -/
theorem sorted_keys_strictly_increasing_witness :
    aggregate parseRubyDate boundaryRecords = .ok boundaryHistogram ∧
    boundaryHistogram.keys.Perm boundaryHistogram.keys ∧
    ((∀ i j : Fin (sortSlice less boundaryHistogram.keys).length, i < j →
        lexLt ((sortSlice less boundaryHistogram.keys).get i)
          ((sortSlice less boundaryHistogram.keys).get j)) ∧
      (sortSlice less boundaryHistogram.keys).Nodup) :=
  ⟨boundaryRecords_aggregate, List.Perm.refl _,
    sorted_keys_strictly_increasing parseRubyDate boundaryRecords boundaryHistogram
      boundaryHistogram.keys boundaryRecords_aggregate (List.Perm.refl _)⟩

/-- C3: for every histogram built by the aggregation loop and every order in which `range`
hands out its keys, the sorted key slice holds every key of the histogram exactly once and
nothing else, `values` and `verticalLabels` have that same length, and position `i` pairs
the day `keys[i]` with its own count `tweetsPerDay[keys[i]]` and its own label
`keys[i].String()`. -/
theorem series_pairs_each_key_with_its_count {ε : Type} (parse : String → Except ε Time)
    (data : List TimelineItem) (h : Histogram) (ks : List DayDate)
    (hrun : aggregate parse data = .ok h) (hks : ks.Perm h.keys) :
    (sortSlice less ks).Perm h.keys ∧ h.keys.Nodup ∧
      (sortSlice less ks).length = h.keys.length ∧
      (seriesOf h (sortSlice less ks)).1.length = h.keys.length ∧
      (seriesOf h (sortSlice less ks)).2.length = h.keys.length ∧
      ∀ (i : Nat) (d : DayDate), (sortSlice less ks)[i]? = some d →
        (seriesOf h (sortSlice less ks)).1[i]? = some (h.get d) ∧
        (seriesOf h (sortSlice less ks)).2[i]? = some d.String := by
  obtain ⟨hperm, _, _⟩ := sorted_keys_of_aggregate parse data h ks hrun hks
  have hnd : h.keys.Nodup := (aggregate_spec parse data h hrun).1
  rw [seriesOf_eq_map]
  refine ⟨hperm, hnd, hperm.length_eq, ?_, ?_, ?_⟩
  · simp [hperm.length_eq]
  · simp [hperm.length_eq]
  · intro i d hd
    simp [List.getElem?_map, hd]

/-- Witness of C3: the boundary histogram with its keys visited in storage order. -/
theorem series_pairs_each_key_with_its_count_witness :
    aggregate parseRubyDate boundaryRecords = .ok boundaryHistogram ∧
    boundaryHistogram.keys.Perm boundaryHistogram.keys ∧
    ((sortSlice less boundaryHistogram.keys).Perm boundaryHistogram.keys ∧
      boundaryHistogram.keys.Nodup ∧
      (sortSlice less boundaryHistogram.keys).length = boundaryHistogram.keys.length ∧
      (seriesOf boundaryHistogram (sortSlice less boundaryHistogram.keys)).1.length =
        boundaryHistogram.keys.length ∧
      (seriesOf boundaryHistogram (sortSlice less boundaryHistogram.keys)).2.length =
        boundaryHistogram.keys.length ∧
      ∀ (i : Nat) (d : DayDate), (sortSlice less boundaryHistogram.keys)[i]? = some d →
        (seriesOf boundaryHistogram (sortSlice less boundaryHistogram.keys)).1[i]? =
          some (boundaryHistogram.get d) ∧
        (seriesOf boundaryHistogram (sortSlice less boundaryHistogram.keys)).2[i]? =
          some d.String) :=
  ⟨boundaryRecords_aggregate, List.Perm.refl _,
    series_pairs_each_key_with_its_count parseRubyDate boundaryRecords boundaryHistogram
      boundaryHistogram.keys boundaryRecords_aggregate (List.Perm.refl _)⟩

/-- C4: the less-function of `plotUser` answers true exactly when `a` precedes `b` in the
lexicographic order (year, then month, then day), for all integer field values; it is
irreflexive and transitive, and of two distinct days exactly one is less than the other.
It ranks 31.12.2023 before 1.1.2024 and not the other way round. -/
theorem less_is_lexicographic_strict_total_order :
    (∀ a b : DayDate, less a b = true ↔
      (a.Year < b.Year ∨ (a.Year = b.Year ∧ a.Month < b.Month) ∨
        (a.Year = b.Year ∧ a.Month = b.Month ∧ a.Day < b.Day))) ∧
    (∀ a : DayDate, less a a = false) ∧
    (∀ a b c : DayDate, less a b = true → less b c = true → less a c = true) ∧
    (∀ a b : DayDate, a ≠ b →
      (less a b = true ∧ less b a = false) ∨ (less a b = false ∧ less b a = true)) ∧
    less ⟨31, 12, 2023⟩ ⟨1, 1, 2024⟩ = true ∧ less ⟨1, 1, 2024⟩ ⟨31, 12, 2023⟩ = false := by
  refine ⟨less_iff_lexLt, less_irrefl, fun a b c => less_trans, ?_, by decide, by decide⟩
  intro a b hne
  rcases less_total hne with h | h
  · exact Or.inl ⟨h, less_asymm h⟩
  · exact Or.inr ⟨less_asymm h, h⟩

/-- C5: on a record sequence and on any permutation of it the aggregation loop gives the
same outcome: both runs fail on a malformed timestamp, or both return a histogram, with the
same calendar days as keys and the same count for every day. -/
theorem aggregate_perm_invariant {ε : Type} (parse : String → Except ε Time)
    (data₁ data₂ : List TimelineItem) (hperm : data₁.Perm data₂) :
    ((∃ e₁, aggregate parse data₁ = .error e₁) ∧ (∃ e₂, aggregate parse data₂ = .error e₂)) ∨
    (∃ h₁ h₂, aggregate parse data₁ = .ok h₁ ∧ aggregate parse data₂ = .ok h₂ ∧
      (∀ d, d ∈ h₁.keys ↔ d ∈ h₂.keys) ∧ (∀ d, h₁.get d = h₂.get d)) := by
  rcases allParse_or_someMalformed parse data₁ with hall | hbad
  · right
    have hall₂ : AllParse parse data₂ := fun x hx => hall x (hperm.mem_iff.mpr hx)
    obtain ⟨h₁, hrun₁⟩ := aggregateFrom_ok parse data₁ [] hall
    obtain ⟨h₂, hrun₂⟩ := aggregateFrom_ok parse data₂ [] hall₂
    obtain ⟨_, hget₁, hmem₁, _⟩ := aggregate_spec parse data₁ h₁ hrun₁
    obtain ⟨_, hget₂, hmem₂, _⟩ := aggregate_spec parse data₂ h₂ hrun₂
    refine ⟨h₁, h₂, hrun₁, hrun₂, ?_, ?_⟩
    · intro d
      rw [hmem₁ d, hmem₂ d]
      constructor
      · rintro ⟨x, hx, hd⟩
        exact ⟨x, hperm.mem_iff.mp hx, hd⟩
      · rintro ⟨x, hx, hd⟩
        exact ⟨x, hperm.mem_iff.mpr hx, hd⟩
    · intro d
      rw [hget₁ d, hget₂ d, recordsOn_perm parse d hperm]
  · left
    exact ⟨(aggregateFrom_error_iff parse data₁ []).mpr hbad,
      (aggregateFrom_error_iff parse data₂ []).mpr ((someMalformed_perm parse hperm).mp hbad)⟩

/-- Witness of C5: the scenario records and the same records in reverse order. -/
theorem aggregate_perm_invariant_witness :
    scenarioRecords.reverse.Perm scenarioRecords ∧
    (((∃ e₁, aggregate parseRubyDate scenarioRecords.reverse = .error e₁) ∧
        (∃ e₂, aggregate parseRubyDate scenarioRecords = .error e₂)) ∨
      (∃ h₁ h₂, aggregate parseRubyDate scenarioRecords.reverse = .ok h₁ ∧
        aggregate parseRubyDate scenarioRecords = .ok h₂ ∧
        (∀ d, d ∈ h₁.keys ↔ d ∈ h₂.keys) ∧ (∀ d, h₁.get d = h₂.get d))) :=
  ⟨List.reverse_perm _,
    aggregate_perm_invariant parseRubyDate scenarioRecords.reverse scenarioRecords
      (List.reverse_perm _)⟩

/-- C6: the aggregation loop of `plotUser` fails exactly when some record's `created_at`
is rejected by the timestamp parser, and then with the parse error of the first such
record, which is therefore not skipped.  In that case `plotUser` returns an error and leaves
the disk as it found it: no directory is made and no file written, whatever the other
libraries would have done; when `plot.New` succeeds the error returned is the
`invalid date` one, and only then.  The single record with `created_at = "not-a-date"`
makes `plotUser` fail with the parse error. -/
theorem plotUser_fails_on_malformed_timestamp (L : Libs) (username : String)
    (data : List TimelineItem) (w : World) :
    ((∃ e, aggregate L.timeParse data = .error e) ↔
      ∃ item ∈ data, ∃ e, L.timeParse item.CreatedAt = .error e) ∧
    (∀ (pre post : List TimelineItem) (item : TimelineItem) (e : ParseError),
      data = pre ++ item :: post → (∀ x ∈ pre, ∃ t, L.timeParse x.CreatedAt = .ok t) →
      L.timeParse item.CreatedAt = .error e → aggregate L.timeParse data = .error e) ∧
    ((∃ item ∈ data, ∃ e, L.timeParse item.CreatedAt = .error e) →
      ∃ err, plotUser L username data w = (some err, w)) ∧
    ((∃ p, L.plotNew = .ok p) →
      ((∃ e, (plotUser L username data w).1 = some (.invalidDate e)) ↔
        ∃ item ∈ data, ∃ e, L.timeParse item.CreatedAt = .error e)) ∧
    ((∃ p, L.plotNew = .ok p) → ∀ e, aggregate L.timeParse data = .error e →
      plotUser L username data w = (some (.invalidDate e), w)) ∧
    plotUser stdLibs username [{ ID := 1, Text := "", CreatedAt := "not-a-date" }] emptyWorld =
      (some (.invalidDate .cannotParse), emptyWorld) := by
  have hiff := aggregate_error_iff L.timeParse data
  refine ⟨hiff, ?_, ?_, ?_, ?_, by rfl⟩
  · intro pre post item e hdata hpre hitem
    subst hdata
    exact aggregateFrom_first_error L.timeParse pre post item e [] hpre hitem
  · intro hbad
    obtain ⟨e, he⟩ := hiff.mpr hbad
    cases hp : L.plotNew with
    | error e' => exact ⟨_, plotUser_of_plotNew_error L username data w e' hp⟩
    | ok p => exact ⟨_, plotUser_of_aggregate_error L username data w p e hp he⟩
  · rintro ⟨p, hp⟩
    rw [← hiff]
    constructor
    · rintro ⟨e, he⟩
      exact ⟨e, plotUser_invalidDate_only_from_aggregate L username data w e he⟩
    · rintro ⟨e, he⟩
      exact ⟨e, by rw [plotUser_of_aggregate_error L username data w p e hp he]⟩
  · rintro ⟨p, hp⟩ e he
    exact plotUser_of_aggregate_error L username data w p e hp he

/-- C7, as the code has it: on the empty record sequence `plotUser` builds the empty
histogram and the empty series (no keys, no values, no labels, no ticks) and hands the empty
values to `plotter.NewBarChart`.  If that call rejects them, `plotUser` returns the
`failed to create barchart` error and leaves the disk untouched; it returns no error exactly
when `plot.New`, the chart construction, the directory step and `Save` all succeed, and the
plot saved then has no ticks. -/
theorem plotUser_empty_sequence (L : Libs) (username : String) (w : World)
    (hR : L.RangeOk) :
    aggregate L.timeParse [] = .ok [] ∧
    sortSlice less (L.mapRange []) = [] ∧
    seriesOf [] (sortSlice less (L.mapRange [])) = ([], []) ∧
    ticksOf (seriesOf [] (sortSlice less (L.mapRange []))).2 = [] ∧
    (∀ p e, L.plotNew = .ok p → L.newBarChart [] barWidth = .error e →
      plotUser L username [] w = (some (.failedToCreateBarchart e), w)) ∧
    ((plotUser L username [] w).1 = none ↔
      ∃ p bc, L.plotNew = .ok p ∧ L.newBarChart [] barWidth = .ok bc ∧
        (if w.OutputExists then (none, w) else L.mkdir w).1 = none ∧
        (L.save { Bars := p.Bars ++ [bc], Ticks := [] }
          (L.filepathJoin "output" (username ++ ".png"))
          (if w.OutputExists then (none, w) else L.mkdir w).2).1 = none) := by
  have hnil := mapRange_nil L hR
  have hagg : aggregate L.timeParse [] = .ok [] := rfl
  refine ⟨hagg, by rw [hnil]; rfl, by rw [hnil]; rfl, by rw [hnil]; rfl, ?_, ?_⟩
  · intro p e hp he
    exact plotUser_empty_of_barChart_error L username w hR p e hp he
  · have hs1 : (seriesOf [] (sortSlice less ([] : List DayDate))).1 = [] := rfl
    have hs2 : ticksOf (seriesOf [] (sortSlice less ([] : List DayDate))).2 = [] := rfl
    cases hp : L.plotNew with
    | error e =>
      rw [plotUser_of_plotNew_error L username [] w e hp]
      simp
    | ok p =>
      rw [plotUser_of_aggregate_ok L username [] w p [] hp hagg, hnil]
      simp only [hs1, hs2]
      cases hbc : L.newBarChart [] barWidth with
      | error e => simp
      | ok bc =>
        simp only [Except.ok.injEq, exists_and_left, exists_eq_left', reduceCtorEq,
          false_and, exists_false]
        constructor
        · intro hres
          split at hres
          · simp at hres
          · rename_i hmade
            refine ⟨hmade, ?_⟩
            split at hres
            · simp at hres
            · rename_i hsaved
              exact hsaved
        · rintro ⟨hmade, hsaved⟩
          simp only [hmade, hsaved]

/-- Witness of the amended C7 with the standard libraries and a fresh directory. -/
theorem plotUser_empty_sequence_witness :
    stdLibs.RangeOk ∧
    (aggregate stdLibs.timeParse [] = .ok [] ∧
    sortSlice less (stdLibs.mapRange []) = [] ∧
    seriesOf [] (sortSlice less (stdLibs.mapRange [])) = ([], []) ∧
    ticksOf (seriesOf [] (sortSlice less (stdLibs.mapRange []))).2 = [] ∧
    (∀ p e, stdLibs.plotNew = .ok p → stdLibs.newBarChart [] barWidth = .error e →
      plotUser stdLibs "user" [] emptyWorld = (some (.failedToCreateBarchart e), emptyWorld)) ∧
    ((plotUser stdLibs "user" [] emptyWorld).1 = none ↔
      ∃ p bc, stdLibs.plotNew = .ok p ∧ stdLibs.newBarChart [] barWidth = .ok bc ∧
        (if emptyWorld.OutputExists then (none, emptyWorld)
          else stdLibs.mkdir emptyWorld).1 = none ∧
        (stdLibs.save { Bars := p.Bars ++ [bc], Ticks := [] }
          (stdLibs.filepathJoin "output" ("user" ++ ".png"))
          (if emptyWorld.OutputExists then (none, emptyWorld)
            else stdLibs.mkdir emptyWorld).2).1 = none)) :=
  ⟨stdLibs_rangeOk, plotUser_empty_sequence stdLibs "user" emptyWorld stdLibs_rangeOk⟩

/-- C7 as stated fails: with gonum's `plotter.NewBarChart`, which rejects an empty value
list, `plotUser` on the empty record sequence returns the `failed to create barchart` error
and saves no chart. -/
theorem plotUser_empty_sequence_fails :
    gonumNewBarChart [] barWidth = .error "plotter: no data points" ∧
    plotUser stdLibs "user" [] emptyWorld =
      (some (.failedToCreateBarchart "plotter: no data points"), emptyWorld) ∧
    (plotUser stdLibs "user" [] emptyWorld).1 ≠ none := by
  have hbc : gonumNewBarChart [] barWidth = .error "plotter: no data points" := by
    unfold gonumNewBarChart
    rw [if_neg (not_le.mpr barWidth_pos)]
    rfl
  have hrun : plotUser stdLibs "user" [] emptyWorld =
      (some (.failedToCreateBarchart "plotter: no data points"), emptyWorld) :=
    plotUser_empty_of_barChart_error stdLibs "user" emptyWorld stdLibs_rangeOk _ _ rfl hbc
  exact ⟨hbc, hrun, by rw [hrun]; simp⟩

/-- C8: whenever the aggregation loop succeeds on a record sequence, the counts of the
histogram add up to the number of records; on the empty sequence it succeeds with the empty
histogram, whose counts add up to zero. -/
theorem histogram_total_is_record_count {ε : Type} (parse : String → Except ε Time)
    (data : List TimelineItem) (h : Histogram) (hrun : aggregate parse data = .ok h) :
    (h.map Prod.snd).sum = (data.length : Int) ∧
      aggregate parse [] = .ok [] ∧ (([] : Histogram).map Prod.snd).sum = 0 :=
  ⟨(aggregate_spec parse data h hrun).2.2.2, rfl, rfl⟩

/-- Witness of C8 on the three scenario records. -/
theorem histogram_total_is_record_count_witness :
    aggregate parseRubyDate scenarioRecords = .ok [(⟨5, 1, 2024⟩, 2), (⟨1, 2, 2024⟩, 1)] ∧
    ((([(⟨5, 1, 2024⟩, 2), (⟨1, 2, 2024⟩, 1)] : Histogram).map Prod.snd).sum =
        (scenarioRecords.length : Int) ∧
      aggregate parseRubyDate [] = .ok [] ∧ (([] : Histogram).map Prod.snd).sum = 0) :=
  ⟨scenarioRecords_aggregate,
    histogram_total_is_record_count parseRubyDate scenarioRecords _ scenarioRecords_aggregate⟩

/-- C9: three records falling on 5 January 2024, 5 January 2024 and 1 February 2024, in any
input order and with the map keys visited in any order, give exactly the series
`[(5.1.2024, 2), (1.2.2024, 1)]`: sorted keys 5.1.2024 then 1.2.2024, bar values `[2, 1]`,
labels `"5.1.2024"` then `"1.2.2024"` without zero padding, at tick positions 0 and 1. -/
theorem scenario_series {ε : Type} (parse : String → Except ε Time)
    (r₁ r₂ r₃ : TimelineItem) (data : List TimelineItem)
    (h₁ : dayOfItem parse r₁ = some ⟨5, 1, 2024⟩)
    (h₂ : dayOfItem parse r₂ = some ⟨5, 1, 2024⟩)
    (h₃ : dayOfItem parse r₃ = some ⟨1, 2, 2024⟩)
    (hperm : data.Perm [r₁, r₂, r₃]) :
    ∃ h, aggregate parse data = .ok h ∧ ∀ ks : List DayDate, ks.Perm h.keys →
      sortSlice less ks = [⟨5, 1, 2024⟩, ⟨1, 2, 2024⟩] ∧
      seriesOf h (sortSlice less ks) = ([2, 1], ["5.1.2024", "1.2.2024"]) ∧
      ticksOf (seriesOf h (sortSlice less ks)).2 =
        [{ Value := 0, Label := "5.1.2024" }, { Value := 1, Label := "1.2.2024" }] := by
  have hall : AllParse parse data := by
    intro item hitem
    have hmem := hperm.mem_iff.mp hitem
    simp only [List.mem_cons, List.mem_singleton, List.not_mem_nil, or_false] at hmem
    rcases hmem with rfl | rfl | rfl
    · exact dayOfItem_some_parses parse _ _ h₁
    · exact dayOfItem_some_parses parse _ _ h₂
    · exact dayOfItem_some_parses parse _ _ h₃
  obtain ⟨h, hrun⟩ := aggregateFrom_ok parse data [] hall
  obtain ⟨hnd, hget, hmem, _⟩ := aggregate_spec parse data h hrun
  have hcount : ∀ d, recordsOn parse d data = recordsOn parse d [r₁, r₂, r₃] :=
    fun d => recordsOn_perm parse d hperm
  have hg1 : h.get ⟨5, 1, 2024⟩ = 2 := by
    rw [hget, hcount]
    simp [recordsOn, List.countP_cons, h₁, h₂, h₃]
  have hg2 : h.get ⟨1, 2, 2024⟩ = 1 := by
    rw [hget, hcount]
    simp [recordsOn, List.countP_cons, h₁, h₂, h₃]
  have hkeys : ∀ d, d ∈ h.keys ↔ d ∈ [(⟨5, 1, 2024⟩ : DayDate), ⟨1, 2, 2024⟩] := by
    intro d
    rw [hmem d]
    constructor
    · rintro ⟨x, hx, hd⟩
      have hx' := hperm.mem_iff.mp hx
      simp only [List.mem_cons, List.mem_singleton, List.not_mem_nil, or_false] at hx'
      rcases hx' with rfl | rfl | rfl
      · rw [h₁] at hd; cases hd; simp
      · rw [h₂] at hd; cases hd; simp
      · rw [h₃] at hd; cases hd; simp
    · intro hd
      simp only [List.mem_cons, List.mem_singleton, List.not_mem_nil, or_false] at hd
      rcases hd with rfl | rfl
      · exact ⟨r₁, hperm.mem_iff.mpr (by simp), h₁⟩
      · exact ⟨r₃, hperm.mem_iff.mpr (by simp), h₃⟩
  have hpk : ([(⟨5, 1, 2024⟩ : DayDate), ⟨1, 2, 2024⟩]).Perm h.keys :=
    ((List.perm_ext_iff_of_nodup (by decide) hnd).mpr (fun d => (hkeys d).symm))
  refine ⟨h, hrun, ?_⟩
  intro ks hks
  have hsort : sortSlice less ks = [⟨5, 1, 2024⟩, ⟨1, 2, 2024⟩] :=
    sortSlice_unique ks _ (hks.nodup_iff.mpr hnd) (hpk.trans hks.symm) (by decide)
  rw [hsort, seriesOf_eq_map]
  refine ⟨rfl, ?_, ?_⟩
  · simp only [List.map_cons, List.map_nil, hg1, hg2]
    rfl
  · rfl

/-- Witness of C9: the example timestamps, with the February record given first. -/
theorem scenario_series_witness :
    dayOfItem parseRubyDate
      { ID := 7, Text := "a", CreatedAt := "Fri Jan 05 10:00:00 +0000 2024" } =
        some ⟨5, 1, 2024⟩ ∧
    dayOfItem parseRubyDate
      { ID := 7, Text := "b", CreatedAt := "Fri Jan 05 18:30:00 +0000 2024" } =
        some ⟨5, 1, 2024⟩ ∧
    dayOfItem parseRubyDate
      { ID := 9, Text := "c", CreatedAt := "Thu Feb 01 09:00:00 +0000 2024" } =
        some ⟨1, 2, 2024⟩ ∧
    scenarioRecords.reverse.Perm
      [{ ID := 7, Text := "a", CreatedAt := "Fri Jan 05 10:00:00 +0000 2024" },
       { ID := 7, Text := "b", CreatedAt := "Fri Jan 05 18:30:00 +0000 2024" },
       { ID := 9, Text := "c", CreatedAt := "Thu Feb 01 09:00:00 +0000 2024" }] ∧
    ∃ h, aggregate parseRubyDate scenarioRecords.reverse = .ok h ∧
      ∀ ks : List DayDate, ks.Perm h.keys →
      sortSlice less ks = [⟨5, 1, 2024⟩, ⟨1, 2, 2024⟩] ∧
      seriesOf h (sortSlice less ks) = ([2, 1], ["5.1.2024", "1.2.2024"]) ∧
      ticksOf (seriesOf h (sortSlice less ks)).2 =
        [{ Value := 0, Label := "5.1.2024" }, { Value := 1, Label := "1.2.2024" }] :=
  ⟨by rfl, by rfl, by rfl, List.reverse_perm _,
    scenario_series parseRubyDate _ _ _ scenarioRecords.reverse (by rfl) (by rfl) (by rfl)
      (List.reverse_perm _)⟩

/-- C10, as the code has it: the per-field less-function of `plotUser`, with its `<=`
allowances, never misranks two calendar days: its answer is that of the lexicographic
comparison (year, then month, then day) for all days, and it is irreflexive, asymmetric
and transitive. -/
theorem less_agrees_with_lexicographic (a b : DayDate) :
    less a b = decide (lexLt a b) ∧ less a a = false ∧
      (less a b = true → less b a = false) ∧
      (∀ c : DayDate, less a b = true → less b c = true → less a c = true) := by
  refine ⟨?_, less_irrefl a, less_asymm, fun c => less_trans⟩
  by_cases hl : lexLt a b
  · rw [(less_iff_lexLt a b).mpr hl, decide_eq_true hl]
  · have hf : less a b = false := by
      cases hlt : less a b with
      | false => rfl
      | true => exact absurd ((less_iff_lexLt a b).mp hlt) hl
    rw [hf, decide_eq_false hl]

/-- C10 as stated fails: there are no calendar days on which the less-function of
`plotUser` differs from the lexicographic comparison, or is reflexive, or holds in both
directions, or breaks transitivity through a third day. -/
theorem less_never_misranks :
    ¬ ∃ a b : DayDate, ¬ (less a b = true ↔ lexLt a b) ∨ less a a = true ∨
      (less a b = true ∧ less b a = true) ∨
      (∃ c : DayDate, less a b = true ∧ less b c = true ∧ less a c = false) := by
  rintro ⟨a, b, hdiff | hrefl | ⟨hab, hba⟩ | ⟨c, hab, hbc, hac⟩⟩
  · exact hdiff (less_iff_lexLt a b)
  · rw [less_irrefl] at hrefl
    cases hrefl
  · rw [less_asymm hab] at hba
    cases hba
  · rw [less_trans hab hbc] at hac
    cases hac

end TwitterViz
